import Mathlib

/-!
Verification of the simple autoloader pipeline
(src/databricks/simple_autoloader.py).

The file embeds the notebook's pure helpers (`extract_table_name`,
`detect_format`, the Auto Loader option dictionary) and its per-file
driver loop as executable Lean definitions, modelling the external
collaborators (Spark reader/writer, `dbutils.fs`) as parameters of an
environment record, and proves the spec's testable properties about
them.
-/

namespace Autoloader

/-! ## Configuration constants (lines 19-23 of the notebook) -/

def landing_zone : String := "s3://your-bucket/landing-zone/"

def archive_zone : String := "s3://your-bucket/archive-zone/"

def catalog : String := "entity_resolution_dev"

def schema : String := "bronze"

def checkpoint_path : String := "/tmp/autoloader/checkpoints"

/-! ## Name resolver (lines 30-36)

`extract_table_name` applies Python `re.search` with the pattern
`/([a-zA-Z0-9_]+)[^/]*\.` : the leftmost position at which the pattern
matches wins, the capture group is the maximal run of word characters
after the slash (shortening the greedy run can never turn a failing
position into a matching one, because the characters given back are
word characters, hence neither the required dot nor a slash). -/

def isWordChar (c : Char) : Bool := c.isAlphanum || c = '_'

/-- Does `[^/]*\.` match a prefix of the remaining characters, i.e. is
there a literal dot before the next slash (or end of string)? -/
def hasDotBeforeSlash : List Char → Bool
  | [] => false
  | c :: cs => if c = '.' then true else if c = '/' then false else hasDotBeforeSlash cs

/-- Attempt the pattern at one starting position: a slash, then a
nonempty maximal run of `[a-zA-Z0-9_]` (the capture group), then
`[^/]*\.`. -/
def matchAt (s : List Char) : Option String :=
  match s with
  | [] => none
  | c :: rest =>
    if c = '/' then
      let run := rest.takeWhile isWordChar
      if run.isEmpty then none
      else if hasDotBeforeSlash (rest.dropWhile isWordChar) then some run.asString
      else none
    else none

/-- `re.search`: try each starting position from the left, first hit wins. -/
def searchMatch : List Char → Option String
  | [] => none
  | c :: cs =>
    match matchAt (c :: cs) with
    | some g => some g
    | none => searchMatch cs

def extract_table_name (file_path : String) : Option String :=
  searchMatch file_path.data

/-! ## Format detector (lines 39-43) -/

/-- Python `file_path.split('.')[-1]`: the segment after the last dot,
or the whole string when there is no dot. -/
def lastSegAfterDot (s : String) : String :=
  ((s.data.reverse.takeWhile (fun c => c ≠ '.')).reverse).asString

/-- Python `str.lower()` restricted to ASCII, applied characterwise. -/
def lowerStr (s : String) : String := (s.data.map Char.toLower).asString

def detect_format (file_path : String) : String :=
  let ext := lowerStr (lastSegAfterDot file_path)
  if ext = "csv" ∨ ext = "json" ∨ ext = "parquet" ∨ ext = "txt" then ext else "csv"

/-! ## Auto Loader options (lines 65-75), as an association list in
insertion order of the Python dict. -/

def build_options (file_format table_name checkpoint_root : String) :
    List (String × String) :=
  let base := [("cloudFiles.format", file_format),
               ("cloudFiles.schemaLocation", checkpoint_root ++ "/" ++ table_name ++ "/schema"),
               ("cloudFiles.inferColumnTypes", "true")]
  let withCsv := if file_format = "csv"
                 then base ++ [("header", "true"), ("delimiter", ",")]
                 else base
  if file_format = "txt"
  then withCsv ++ [("header", "true"), ("delimiter", "\t")]
  else withCsv

/-! ## Row model and column augmentation (lines 78-84)

A row is an association list from column name to cell value; a cell is
either a string or a timestamp. Spark's `withColumn` replaces any
existing column of the same name and appends the new column. -/

inductive ColVal where
  | str (v : String)
  | time (v : Nat)
deriving DecidableEq

abbrev Row := List (String × ColVal)

def withColumn (r : Row) (name : String) (v : ColVal) : Row :=
  r.filter (fun kv => kv.1 != name) ++ [(name, v)]

/-- `.withColumn('source_file', lit(file_path)).withColumn('load_timestamp',
current_timestamp())` applied to every row of the read result; the
timestamp argument is evaluated once per file. -/
def augment (rows : List Row) (file_path : String) (now : Nat) : List Row :=
  rows.map (fun r => withColumn (withColumn r "source_file" (ColVal.str file_path))
                       "load_timestamp" (ColVal.time now))

/-! ## Python `str.replace(pat, '')` (line 93)

Scans left to right; at each position where `pat` is a prefix it removes
that occurrence and continues after it. Fuel-indexed so that the
function is structurally recursive and kernel-reducible; the fuel
`s.length` is always sufficient because each step consumes at least one
character. -/

def removeAllFuel (pat : List Char) : Nat → List Char → List Char
  | 0, s => s
  | fuel + 1, s =>
    match s with
    | [] => []
    | c :: cs =>
      if !pat.isEmpty && pat.isPrefixOf (c :: cs) then
        removeAllFuel pat fuel ((c :: cs).drop pat.length)
      else
        c :: removeAllFuel pat fuel cs

def str_replace_empty (s pat : String) : String :=
  (removeAllFuel pat.data s.data.length s.data).asString

/-! ## Driver loop (lines 50-97)

The external collaborators are fields of `Env`: the registry snapshot
taken before the loop (line 26), the Spark read of one file under given
options, and an oracle saying whether the Delta append for a file
commits. A write that does not commit raises in Python; the raise is
modelled by the `error` field of the step result, and `main_loop`
stops at the first raise exactly as an uncaught Python exception stops
the `for` loop. `now` is the per-file evaluation of
`current_timestamp()`, advanced once per processed file. -/

structure Env where
  landing : String
  archive : String
  cat : String
  sch : String
  ckpt : String
  tables : List String
  read : String → List (String × String) → List Row
  writeOk : String → Bool

inductive Event where
  | skippedNoName (path : String)
  | skippedUnregistered (path table : String)
  | processing (path format table : String)
  | wrote (table : String) (rows : List Row) (path : String)
  | moved (src dst : String)
deriving DecidableEq

structure StepResult where
  events : List Event
  error : Option String
deriving DecidableEq

def qualified_table (env : Env) (t : String) : String :=
  env.cat ++ "." ++ env.sch ++ "." ++ t

def process_file (env : Env) (now : Nat) (file_path : String) : StepResult :=
  match extract_table_name file_path with
  | none => ⟨[Event.skippedNoName file_path], none⟩
  | some table_name =>
    if table_name = "" then ⟨[Event.skippedNoName file_path], none⟩
    else if table_name ∈ env.tables then
      let file_format := detect_format file_path
      let opts := build_options file_format table_name env.ckpt
      let df := augment (env.read file_path opts) file_path now
      if env.writeOk file_path then
        let archive_path := env.archive ++ str_replace_empty file_path env.landing
        ⟨[Event.processing file_path file_format table_name,
          Event.wrote (qualified_table env table_name) df file_path,
          Event.moved file_path archive_path], none⟩
      else
        ⟨[Event.processing file_path file_format table_name], some "write failed"⟩
    else ⟨[Event.skippedUnregistered file_path table_name], none⟩

def main_loop (env : Env) : Nat → List String → StepResult
  | _, [] => ⟨[], none⟩
  | now, p :: ps =>
    let r := process_file env now p
    match r.error with
    | some e => ⟨r.events, some e⟩
    | none =>
      let rest := main_loop env (now + 1) ps
      ⟨r.events ++ rest.events, rest.error⟩

/-! ## Spec-side auxiliary definitions (used only to state claims) -/

/-- The path segment after the final path separator (the basename), as
the spec's algorithm description uses it. -/
def basenameSeg (s : String) : String :=
  ((s.data.reverse.takeWhile (fun c => c ≠ '/')).reverse).asString

/-- The spec's side condition for the resolver: the path has a
dot-delimited segment with a leading alphanumeric/underscore run, i.e.
it decomposes as `u ++ '/' :: v ++ w ++ '.' :: x` with `v` a nonempty
run of word characters and no slash between the run and the dot. -/
def matchDecomp (s : List Char) : Prop :=
  ∃ u v w x, s = u ++ '/' :: (v ++ w ++ '.' :: x) ∧ v ≠ [] ∧
    (∀ c ∈ v, isWordChar c = true) ∧ '/' ∉ w

/-- Does a (nonempty) pattern occur as a contiguous substring? Mirrors
the occurrence scan of `str.replace`. -/
def occursIn (pat : List Char) : List Char → Bool
  | [] => pat.isEmpty
  | c :: cs => pat.isPrefixOf (c :: cs) || occursIn pat cs

/-- Events that touch external state — the read/processing of a file, a
table write, or a file move; skip log lines are not side effects. -/
def isSideEffect : Event → Bool
  | Event.processing _ _ _ => true
  | Event.wrote _ _ _ => true
  | Event.moved _ _ => true
  | _ => false

/-- A small concrete environment used to instantiate the general
theorems: landing root "L/", archive root "A/", one-row read results,
a registry and a write oracle supplied per use. -/
def testEnv (ts : List String) (wOk : String → Bool) : Env :=
  { landing := "L/", archive := "A/", cat := "c", sch := "s", ckpt := "k",
    tables := ts, read := fun _ _ => [[("col", ColVal.str "v")]], writeOk := wOk }

/-! ## Lemmas about the resolver's search -/

theorem isPrefixOf_append_self (l₁ l₂ : List Char) : l₁.isPrefixOf (l₁ ++ l₂) = true := by
  induction l₁ with
  | nil => simp [List.isPrefixOf]
  | cons a as ih => simp [List.isPrefixOf, ih]

theorem matchAt_ne_slash {c : Char} (h : c ≠ '/') (cs : List Char) :
    matchAt (c :: cs) = none := by
  simp [matchAt, h]

theorem searchMatch_of_no_slash {s : List Char} (h : '/' ∉ s) : searchMatch s = none := by
  induction s with
  | nil => rfl
  | cons c cs ih =>
    have hc : c ≠ '/' := fun hc => h (by simp [hc])
    simp only [searchMatch, matchAt_ne_slash hc]
    exact ih fun hm => h (by simp [hm])

theorem hasDot_append_slash {l : List Char} (h : '.' ∉ l) (r : List Char) :
    hasDotBeforeSlash (l ++ '/' :: r) = false := by
  induction l with
  | nil =>
    simp [hasDotBeforeSlash]
  | cons c cs ih =>
    have hc : c ≠ '.' := fun hc => h (by simp [hc])
    by_cases hs : c = '/'
    · simp only [List.cons_append, hasDotBeforeSlash, if_neg hc, if_pos hs]
    · simp only [List.cons_append, hasDotBeforeSlash, if_neg hc, if_neg hs]
      exact ih fun hm => h (by simp [hm])

theorem hasDot_dropWhile_split {pre : List Char} (h : '.' ∉ pre) (bn : List Char) :
    hasDotBeforeSlash ((pre ++ '/' :: bn).dropWhile isWordChar) = false := by
  induction pre with
  | nil =>
    rw [List.nil_append, List.dropWhile_cons, if_neg (by decide)]
    simp [hasDotBeforeSlash]
  | cons c cs ih =>
    by_cases hw : isWordChar c = true
    · rw [List.cons_append, List.dropWhile_cons, if_pos hw]
      exact ih fun hm => h (by simp [hm])
    · rw [List.cons_append, List.dropWhile_cons, if_neg hw]
      have hc : c ≠ '.' := fun hcc => h (by simp [hcc])
      by_cases hs : c = '/'
      · simp only [hasDotBeforeSlash, if_neg hc, if_pos hs]
      · simp only [hasDotBeforeSlash, if_neg hc, if_neg hs]
        exact hasDot_append_slash (fun hm => h (by simp [hm])) bn

/-- When no dot occurs before the final slash, a search over the whole
path reduces to a single pattern attempt at the final slash. -/
theorem searchMatch_split {pre bn : List Char} (hpre : '.' ∉ pre) (hbn : '/' ∉ bn) :
    searchMatch (pre ++ '/' :: bn) = matchAt ('/' :: bn) := by
  induction pre with
  | nil =>
    rw [List.nil_append]
    cases hm : matchAt ('/' :: bn) with
    | some g => simp only [searchMatch, hm]
    | none => simp only [searchMatch, hm, searchMatch_of_no_slash hbn]
  | cons c cs ih =>
    have ihcs := ih fun hm => hpre (by simp [hm])
    by_cases hs : c = '/'
    · subst hs
      have hmn : matchAt ('/' :: (cs ++ '/' :: bn)) = none := by
        have hd : hasDotBeforeSlash ((cs ++ '/' :: bn).dropWhile isWordChar) = false :=
          hasDot_dropWhile_split (fun hm => hpre (by simp [hm])) bn
        simp [matchAt, hd]
      rw [List.cons_append, searchMatch, hmn]
      exact ihcs
    · rw [List.cons_append, searchMatch, matchAt_ne_slash hs]
      exact ihcs

theorem hasDot_decomp {d : List Char} (h : hasDotBeforeSlash d = true) :
    ∃ w x, d = w ++ '.' :: x ∧ '/' ∉ w := by
  induction d with
  | nil => simp [hasDotBeforeSlash] at h
  | cons c cs ih =>
    by_cases hc : c = '.'
    · exact ⟨[], cs, by simp [hc], by simp⟩
    · by_cases hs : c = '/'
      · simp [hasDotBeforeSlash, hc, hs] at h
      · simp only [hasDotBeforeSlash, if_neg hc, if_neg hs] at h
        obtain ⟨w, x, hwx, hw⟩ := ih h
        refine ⟨c :: w, x, by simp [hwx], ?_⟩
        simp only [List.mem_cons, not_or]
        exact ⟨fun hcc => hs hcc.symm, hw⟩

theorem hasDot_append_dot {w : List Char} (h : '/' ∉ w) (x : List Char) :
    hasDotBeforeSlash (w ++ '.' :: x) = true := by
  induction w with
  | nil => simp [hasDotBeforeSlash]
  | cons c cs ih =>
    by_cases hc : c = '.'
    · simp [hasDotBeforeSlash, hc]
    · have hs : c ≠ '/' := fun hcc => h (by simp [hcc])
      simp only [List.cons_append, hasDotBeforeSlash, if_neg hc, if_neg hs]
      exact ih fun hm => h (by simp [hm])

theorem dropWhile_append_all {p : Char → Bool} {l₁ : List Char} (h : ∀ c ∈ l₁, p c = true)
    (l₂ : List Char) : (l₁ ++ l₂).dropWhile p = l₂.dropWhile p := by
  induction l₁ with
  | nil => rfl
  | cons a as ih =>
    rw [List.cons_append, List.dropWhile_cons, if_pos (h a (by simp))]
    exact ih fun c hc => h c (by simp [hc])

theorem hasDot_dropWhile_dot {w : List Char} (h : '/' ∉ w) (x : List Char) :
    hasDotBeforeSlash ((w ++ '.' :: x).dropWhile isWordChar) = true := by
  induction w with
  | nil =>
    rw [List.nil_append, List.dropWhile_cons, if_neg (by decide)]
    simp [hasDotBeforeSlash]
  | cons c cs ih =>
    by_cases hw : isWordChar c = true
    · rw [List.cons_append, List.dropWhile_cons, if_pos hw]
      exact ih fun hm => h (by simp [hm])
    · rw [List.cons_append, List.dropWhile_cons, if_neg hw]
      by_cases hc : c = '.'
      · simp [hasDotBeforeSlash, hc]
      · have hs : c ≠ '/' := fun hcc => h (by simp [hcc])
        simp only [hasDotBeforeSlash, if_neg hc, if_neg hs]
        exact hasDot_append_dot (fun hm => h (by simp [hm])) x

/-- Soundness of a successful search: the path has a dot-delimited
segment with a leading word-character run. -/
theorem searchMatch_some_decomp {s : List Char} {g : String}
    (h : searchMatch s = some g) : matchDecomp s := by
  induction s with
  | nil => simp [searchMatch] at h
  | cons c cs ih =>
    cases hm : matchAt (c :: cs) with
    | none =>
      simp only [searchMatch, hm] at h
      obtain ⟨u, v, w, x, hs, hv, hvw, hw⟩ := ih h
      exact ⟨c :: u, v, w, x, by simp [hs], hv, hvw, hw⟩
    | some g' =>
      have hc : c = '/' := by
        by_contra hcc
        rw [matchAt_ne_slash hcc] at hm
        exact Option.noConfusion hm
      subst hc
      simp only [matchAt, if_pos rfl] at hm
      by_cases he : (cs.takeWhile isWordChar).isEmpty = true
      · simp [he] at hm
      · rw [if_neg he] at hm
        by_cases hd : hasDotBeforeSlash (cs.dropWhile isWordChar) = true
        · obtain ⟨w, x, hwx, hw⟩ := hasDot_decomp hd
          refine ⟨[], cs.takeWhile isWordChar, w, x, ?_, ?_, ?_, hw⟩
          · rw [List.nil_append]
            have : cs = cs.takeWhile isWordChar ++ cs.dropWhile isWordChar :=
              (List.takeWhile_append_dropWhile isWordChar cs).symm
            rw [List.append_assoc, ← hwx, ← this]
          · intro hnil
            rw [hnil] at he
            exact he rfl
          · exact fun a ha => List.mem_takeWhile_imp ha
        · simp [hd] at hm

/-- Completeness: a path with a dot-delimited segment led by a word run
is found by the search. -/
theorem searchMatch_ne_none_of_decomp {s : List Char} (h : matchDecomp s) :
    searchMatch s ≠ none := by
  obtain ⟨u, v, w, x, hs, hv, hvw, hw⟩ := h
  subst hs
  induction u with
  | nil =>
    rw [List.nil_append]
    have hmm : matchAt ('/' :: (v ++ w ++ '.' :: x)) ≠ none := by
      cases v with
      | nil => exact absurd rfl hv
      | cons a as =>
        have hdw2 : List.dropWhile isWordChar (a :: (as ++ (w ++ '.' :: x))) =
            List.dropWhile isWordChar (w ++ '.' :: x) := by
          rw [← List.cons_append]
          exact dropWhile_append_all hvw (w ++ '.' :: x)
        simp [matchAt, List.append_assoc, hdw2, hasDot_dropWhile_dot hw x,
          hvw a (by simp)]
    cases hm : matchAt ('/' :: (v ++ w ++ '.' :: x)) with
    | none => exact absurd hm hmm
    | some g => simp only [searchMatch, hm]; exact fun hcon => Option.noConfusion hcon
  | cons a u' ih =>
    rw [List.cons_append]
    cases hm : matchAt (a :: (u' ++ '/' :: (v ++ w ++ '.' :: x))) with
    | some g => simp only [searchMatch, hm]; exact fun hcon => Option.noConfusion hcon
    | none => simp only [searchMatch, hm]; exact ih

/-- The search succeeds exactly on paths with a dot-delimited segment
led by a nonempty alphanumeric/underscore run. -/
theorem matchDecomp_iff (s : List Char) : matchDecomp s ↔ searchMatch s ≠ none := by
  constructor
  · exact searchMatch_ne_none_of_decomp
  · intro h
    cases hm : searchMatch s with
    | none => exact absurd hm h
    | some g => exact searchMatch_some_decomp hm

theorem searchMatch_of_no_dot {s : List Char} (h : '.' ∉ s) : searchMatch s = none := by
  cases hm : searchMatch s with
  | none => rfl
  | some g =>
    obtain ⟨u, v, w, x, hs, -, -, -⟩ := searchMatch_some_decomp hm
    exact absurd (by simp [hs] : '.' ∈ s) h

/-! ## Lemmas about replace, lookup and augmentation -/

theorem removeAllFuel_succ_cons (pat : List Char) (f : Nat) (c : Char) (cs : List Char) :
    removeAllFuel pat (f + 1) (c :: cs) =
      if !pat.isEmpty && pat.isPrefixOf (c :: cs) then
        removeAllFuel pat f ((c :: cs).drop pat.length)
      else c :: removeAllFuel pat f cs := rfl

theorem removeAllFuel_no_occurs {pat s : List Char} (h : occursIn pat s = false) :
    ∀ fuel, removeAllFuel pat fuel s = s := by
  induction s with
  | nil => intro fuel; cases fuel <;> rfl
  | cons c cs ih =>
    intro fuel
    cases fuel with
    | zero => rfl
    | succ f =>
      simp only [occursIn, Bool.or_eq_false_iff] at h
      rw [removeAllFuel_succ_cons, if_neg (by simp [h.1]), ih h.2 f]

theorem removeAll_strip {P R : List Char} (hp : P ≠ []) (h : occursIn P R = false)
    (f : Nat) : removeAllFuel P (f + 1) (P ++ R) = R := by
  cases P with
  | nil => exact absurd rfl hp
  | cons p P' =>
    rw [List.cons_append, removeAllFuel_succ_cons,
      if_pos (by rw [← List.cons_append]; simp [isPrefixOf_append_self]),
      ← List.cons_append, List.drop_left]
    exact removeAllFuel_no_occurs h f

theorem str_replace_strip {pat rest : String} (hp : pat ≠ "")
    (h : occursIn pat.data rest.data = false) :
    str_replace_empty (pat ++ rest) pat = rest := by
  have hpd : pat.data ≠ [] := by
    intro hd
    apply hp
    cases pat
    simp_all
  have hdata : (pat ++ rest).data = pat.data ++ rest.data := rfl
  have hlen : (pat.data ++ rest.data).length = ((pat.data ++ rest.data).length - 1) + 1 := by
    cases hP : pat.data with
    | nil => exact absurd hP hpd
    | cons a l => simp
  unfold str_replace_empty
  rw [hdata, hlen, removeAll_strip hpd h]
  rfl

theorem lookup_append_left {β : Type} {n : String} {l₁ : List (String × β)} {v : β}
    (h : List.lookup n l₁ = some v) (l₂ : List (String × β)) :
    List.lookup n (l₁ ++ l₂) = some v := by
  induction l₁ with
  | nil => simp [List.lookup] at h
  | cons kv l ih =>
    obtain ⟨k, w⟩ := kv
    simp only [List.cons_append, List.lookup] at h ⊢
    split at h <;> simp_all

theorem lookup_append_none {β : Type} {n : String} {l₁ : List (String × β)}
    (h : List.lookup n l₁ = none) (l₂ : List (String × β)) :
    List.lookup n (l₁ ++ l₂) = List.lookup n l₂ := by
  induction l₁ with
  | nil => rfl
  | cons kv l ih =>
    obtain ⟨k, w⟩ := kv
    simp only [List.cons_append, List.lookup] at h ⊢
    split at h <;> simp_all

theorem lookup_append_right {β : Type} {n : String} {l₁ : List (String × β)}
    (h : ∀ kv ∈ l₁, kv.1 ≠ n) (l₂ : List (String × β)) :
    List.lookup n (l₁ ++ l₂) = List.lookup n l₂ := by
  induction l₁ with
  | nil => rfl
  | cons kv l ih =>
    obtain ⟨k, w⟩ := kv
    have hk : (n == k) = false :=
      beq_eq_false_iff_ne.mpr fun he => (h (k, w) (by simp)) he.symm
    simp only [List.cons_append, List.lookup, hk]
    exact ih fun kv hkv => h kv (by simp [hkv])

theorem mem_filter_ne {l : Row} {m : String} {kv : String × ColVal}
    (h : kv ∈ l.filter fun kv => kv.1 != m) : kv.1 ≠ m := by
  have := List.of_mem_filter h
  simpa [bne_iff_ne] using this

theorem lookup_withColumn_self (r : Row) (n : String) (v : ColVal) :
    List.lookup n (withColumn r n v) = some v := by
  unfold withColumn
  rw [lookup_append_right (fun kv hkv => mem_filter_ne hkv) [(n, v)]]
  simp [List.lookup]

theorem lookup_filter_ne {n m : String} (hnm : n ≠ m) (l : Row) :
    List.lookup n (l.filter fun kv => kv.1 != m) = List.lookup n l := by
  induction l with
  | nil => rfl
  | cons kv t ih =>
    obtain ⟨k, v⟩ := kv
    simp only [List.filter_cons]
    by_cases hkm : k = m
    · rw [if_neg (by simp [hkm])]
      have hk : (n == k) = false := beq_eq_false_iff_ne.mpr (by rw [hkm]; exact hnm)
      simp only [List.lookup, hk]
      exact ih
    · rw [if_pos (by simp [hkm])]
      simp only [List.lookup]
      cases hnk : (n == k) <;> simp_all

theorem lookup_withColumn_ne {n m : String} (hnm : n ≠ m) (r : Row) (v : ColVal) :
    List.lookup n (withColumn r m v) = List.lookup n r := by
  unfold withColumn
  cases hr : List.lookup n r with
  | some w =>
    exact lookup_append_left ((lookup_filter_ne hnm r).trans hr) _
  | none =>
    rw [lookup_append_none ((lookup_filter_ne hnm r).trans hr) _]
    have hk : (n == m) = false := beq_eq_false_iff_ne.mpr hnm
    simp [List.lookup, hk]

theorem lookup_source_file (r : Row) (p : String) (t : Nat) :
    List.lookup "source_file"
      (withColumn (withColumn r "source_file" (ColVal.str p))
        "load_timestamp" (ColVal.time t)) = some (ColVal.str p) :=
  (lookup_withColumn_ne (by decide) _ _).trans (lookup_withColumn_self r _ _)

theorem augment_mem {rows : List Row} {p : String} {t : Nat} {r : Row}
    (h : r ∈ augment rows p t) :
    List.lookup "source_file" r = some (ColVal.str p) ∧
    List.lookup "load_timestamp" r = some (ColVal.time t) := by
  obtain ⟨r₀, -, rfl⟩ := List.mem_map.mp h
  exact ⟨lookup_source_file r₀ p t, lookup_withColumn_self _ _ _⟩

theorem lastSegAfterDot_of_no_dot {s : String} (h : '.' ∉ s.data) :
    lastSegAfterDot s = s := by
  unfold lastSegAfterDot
  have ht : s.data.reverse.takeWhile (fun c => c ≠ '.') = s.data.reverse := by
    rw [List.takeWhile_eq_self_iff]
    intro a ha
    have ham : a ∈ s.data := List.mem_reverse.mp ha
    simp only [ne_eq, decide_not, Bool.not_eq_eq_eq_not, Bool.not_true, decide_eq_false_iff_not]
    exact fun he => h (he ▸ ham)
  rw [ht, List.reverse_reverse]
  rfl

/-! ## Lemmas about the driver -/

theorem process_file_skip_none {env : Env} {now : Nat} {p : String}
    (h : extract_table_name p = none) :
    process_file env now p = ⟨[Event.skippedNoName p], none⟩ := by
  simp [process_file, h]

theorem process_file_skip_empty {env : Env} {now : Nat} {p : String}
    (h : extract_table_name p = some "") :
    process_file env now p = ⟨[Event.skippedNoName p], none⟩ := by
  simp [process_file, h]

theorem process_file_skip_unreg {env : Env} {now : Nat} {p n : String}
    (h : extract_table_name p = some n) (hne : n ≠ "") (hmem : n ∉ env.tables) :
    process_file env now p = ⟨[Event.skippedUnregistered p n], none⟩ := by
  simp [process_file, h, hne, hmem]

theorem process_file_success {env : Env} {now : Nat} {p n : String}
    (h : extract_table_name p = some n) (hne : n ≠ "") (hmem : n ∈ env.tables)
    (hw : env.writeOk p = true) :
    process_file env now p =
      ⟨[Event.processing p (detect_format p) n,
        Event.wrote (qualified_table env n)
          (augment (env.read p (build_options (detect_format p) n env.ckpt)) p now) p,
        Event.moved p (env.archive ++ str_replace_empty p env.landing)], none⟩ := by
  simp [process_file, h, hne, hmem, hw]

theorem process_file_write_failure {env : Env} {now : Nat} {p n : String}
    (h : extract_table_name p = some n) (hne : n ≠ "") (hmem : n ∈ env.tables)
    (hw : env.writeOk p = false) :
    process_file env now p =
      ⟨[Event.processing p (detect_format p) n], some "write failed"⟩ := by
  simp [process_file, h, hne, hmem, hw]

theorem main_loop_cons (env : Env) (now : Nat) (p : String) (ps : List String) :
    main_loop env now (p :: ps) =
      match (process_file env now p).error with
      | some e => ⟨(process_file env now p).events, some e⟩
      | none => ⟨(process_file env now p).events ++ (main_loop env (now + 1) ps).events,
                 (main_loop env (now + 1) ps).error⟩ := rfl

theorem wrote_mem_process {env : Env} {now : Nat} {p tbl q : String} {df : List Row}
    (h : Event.wrote tbl df q ∈ (process_file env now p).events) :
    q = p ∧ ∃ n, df = augment (env.read p (build_options (detect_format p) n env.ckpt)) p now := by
  cases hx : extract_table_name p with
  | none => rw [process_file_skip_none hx] at h; simp at h
  | some n =>
    by_cases hne : n = ""
    · subst hne; rw [process_file_skip_empty hx] at h; simp at h
    · by_cases hmem : n ∈ env.tables
      · cases hw : env.writeOk p with
        | true =>
          rw [process_file_success hx hne hmem hw] at h
          simp only [List.mem_cons, List.mem_singleton] at h
          rcases h with h | h | h | h
          · exact absurd h (by simp)
          · obtain ⟨-, hdf, hq⟩ := Event.wrote.inj h
            exact ⟨hq, n, hdf⟩
          · exact absurd h (by simp)
          · simp at h
        | false =>
          rw [process_file_write_failure hx hne hmem hw] at h; simp at h
      · rw [process_file_skip_unreg hx hne hmem] at h; simp at h

theorem wrote_mem_loop {env : Env} {tbl q : String} {df : List Row} :
    ∀ {now : Nat} {files : List String},
    Event.wrote tbl df q ∈ (main_loop env now files).events →
    ∃ t n, df = augment (env.read q (build_options (detect_format q) n env.ckpt)) q t := by
  intro now files
  induction files generalizing now with
  | nil => intro h; simp [main_loop] at h
  | cons p ps ih =>
    intro h
    rw [main_loop_cons] at h
    cases he : (process_file env now p).error with
    | some e =>
      simp only [he] at h
      obtain ⟨rfl, nn, hdf⟩ := wrote_mem_process h
      exact ⟨now, nn, hdf⟩
    | none =>
      simp only [he] at h
      rcases List.mem_append.mp h with h1 | h2
      · obtain ⟨rfl, nn, hdf⟩ := wrote_mem_process h1
        exact ⟨now, nn, hdf⟩
      · exact ih h2

/-! ## Claims -/

/-- C1: the claim (like the notebook's own comment and header) says that
for a basename of the form `edm_entity_2024-06-01.csv` the resolver
returns "edm_entity". The regex's greedy word-run `[a-zA-Z0-9_]+` also
swallows the underscore and the leading date digits, so the code
actually returns "edm_entity_2024": this theorem evaluates the embedded
resolver at the failing input. -/
theorem extract_table_name_keeps_trailing_digits :
    extract_table_name "s3://your-bucket/landing-zone/edm_entity_2024-06-01.csv" =
      some "edm_entity_2024" ∧
    ("edm_entity_2024" : String) ≠ "edm_entity" := by
  decide

/-- C2 counterexample: two eligible files, the first one's write does
not commit. The run ends with the raised error right after the first
file: its whole event list is the single processing line — the first
file is not moved, and the second file, although resolvable, registered
and with a committing write, is never processed. This refutes "one
file's write failure never aborts processing of subsequent files". -/
theorem write_failure_continue_counterexample :
    main_loop (testEnv ["a", "b"] fun p => p == "L/b.csv") 0 ["L/a.csv", "L/b.csv"] =
      ⟨[Event.processing "L/a.csv" "csv" "a"], some "write failed"⟩ ∧
    Event.processing "L/b.csv" "csv" "b" ∉
      (main_loop (testEnv ["a", "b"] fun p => p == "L/b.csv") 0
        ["L/a.csv", "L/b.csv"]).events ∧
    extract_table_name "L/b.csv" = some "b" ∧
    "b" ∈ (testEnv ["a", "b"] fun p => p == "L/b.csv").tables ∧
    (testEnv ["a", "b"] fun p => p == "L/b.csv").writeOk "L/b.csv" = true := by
  decide

/-- C2 (amended): when the destination-table write for an eligible file
fails to commit, that file is not moved to the archive, but the failure
is an uncaught raise that aborts the invocation: the run's result is
exactly the failing file's processing event together with the error,
and no remaining file is processed. -/
theorem write_failure_aborts_invocation (env : Env) (now : Nat) (p n : String)
    (ps : List String)
    (h : extract_table_name p = some n) (hne : n ≠ "") (hmem : n ∈ env.tables)
    (hw : env.writeOk p = false) :
    main_loop env now (p :: ps) =
      ⟨[Event.processing p (detect_format p) n], some "write failed"⟩ := by
  rw [main_loop_cons, process_file_write_failure h hne hmem hw]

theorem write_failure_aborts_invocation_witness :
    main_loop (testEnv ["a"] fun _ => false) 0 ["L/a.csv", "L/x.csv"] =
      ⟨[Event.processing "L/a.csv" "csv" "a"], some "write failed"⟩ :=
  write_failure_aborts_invocation (testEnv ["a"] fun _ => false) 0 "L/a.csv" "a"
    ["L/x.csv"] (by decide) (by decide) (by decide) (by decide)

/-- C3: the driver performs a read, a write or a move for a file only
when the resolved table name is non-empty and present in the registry
snapshot; a file failing the name check or the membership check
produces exactly one skip log event, no side-effect events and no
error, so it remains in the landing area untouched. -/
theorem side_effects_require_registered_name (env : Env) (now : Nat) (p : String) :
    ((extract_table_name p = none ∨ extract_table_name p = some "") →
        process_file env now p = ⟨[Event.skippedNoName p], none⟩) ∧
    (∀ n, extract_table_name p = some n → n ≠ "" → n ∉ env.tables →
        process_file env now p = ⟨[Event.skippedUnregistered p n], none⟩) ∧
    (∀ e ∈ (process_file env now p).events, isSideEffect e = true →
        ∃ n, extract_table_name p = some n ∧ n ≠ "" ∧ n ∈ env.tables) := by
  refine ⟨?_, ?_, ?_⟩
  · rintro (h | h)
    · exact process_file_skip_none h
    · exact process_file_skip_empty h
  · intro n h hne hmem
    exact process_file_skip_unreg h hne hmem
  · intro e he hse
    cases hx : extract_table_name p with
    | none =>
      rw [process_file_skip_none hx] at he
      simp only [List.mem_singleton] at he
      rw [he] at hse
      simp [isSideEffect] at hse
    | some n =>
      by_cases hne : n = ""
      · subst hne
        rw [process_file_skip_empty hx] at he
        simp only [List.mem_singleton] at he
        rw [he] at hse
        simp [isSideEffect] at hse
      · by_cases hmem : n ∈ env.tables
        · exact ⟨n, rfl, hne, hmem⟩
        · rw [process_file_skip_unreg hx hne hmem] at he
          simp only [List.mem_singleton] at he
          rw [he] at hse
          simp [isSideEffect] at hse

theorem side_effects_require_registered_name_witness :
    process_file (testEnv ["t"] fun _ => true) 0 "L/nodot" =
      ⟨[Event.skippedNoName "L/nodot"], none⟩ :=
  (side_effects_require_registered_name (testEnv ["t"] fun _ => true) 0 "L/nodot").1
    (Or.inl (by decide))

/-- C4 counterexample: landing root "L/", listed file "L/L/t.csv",
whose path relative to the landing root is "L/t.csv" — a remainder that
itself contains the landing root again. After the successful write the
file is moved to "A/t.csv" (Python `str.replace` removed BOTH
occurrences of the landing root), not to the archive root joined with
the relative path, "A/L/t.csv". -/
theorem archive_path_not_relative_counterexample :
    ("L/L/t.csv" : String) = (testEnv ["t"] fun _ => true).landing ++ "L/t.csv" ∧
    Event.moved "L/L/t.csv" "A/t.csv" ∈
      (process_file (testEnv ["t"] fun _ => true) 0 "L/L/t.csv").events ∧
    Event.moved "L/L/t.csv" ((testEnv ["t"] fun _ => true).archive ++ "L/t.csv") ∉
      (process_file (testEnv ["t"] fun _ => true) 0 "L/L/t.csv").events := by
  decide

/-- C4 (amended): for an eligible file whose write commits, the driver
emits exactly one move, ordered after the write, with destination
`archive ++ (path with every occurrence of the landing root removed)`;
whenever the landing root does not occur inside the relative remainder
of the path, that destination is exactly the archive root joined with
the file's path relative to the landing root. -/
theorem move_once_after_write_archive_path (env : Env) (now : Nat) (rel n : String)
    (h : extract_table_name (env.landing ++ rel) = some n) (hne : n ≠ "")
    (hmem : n ∈ env.tables) (hw : env.writeOk (env.landing ++ rel) = true)
    (hl : env.landing ≠ "") (hocc : occursIn env.landing.data rel.data = false) :
    (process_file env now (env.landing ++ rel)).events =
      [Event.processing (env.landing ++ rel) (detect_format (env.landing ++ rel)) n,
       Event.wrote (qualified_table env n)
         (augment (env.read (env.landing ++ rel)
            (build_options (detect_format (env.landing ++ rel)) n env.ckpt))
            (env.landing ++ rel) now)
         (env.landing ++ rel),
       Event.moved (env.landing ++ rel) (env.archive ++ rel)] := by
  rw [process_file_success h hne hmem hw, str_replace_strip hl hocc]

theorem move_once_after_write_archive_path_witness :
    (process_file (testEnv ["t"] fun _ => true) 0 "L/t.csv").events =
      [Event.processing "L/t.csv" "csv" "t",
       Event.wrote "c.s.t" (augment [[("col", ColVal.str "v")]] "L/t.csv" 0) "L/t.csv",
       Event.moved "L/t.csv" "A/t.csv"] :=
  move_once_after_write_archive_path (testEnv ["t"] fun _ => true) 0 "t.csv" "t"
    (by decide) (by decide) (by decide) (by decide) (by decide) (by decide)

/-- C5 counterexample: two paths with identical basename "edm.csv". In
the first, the dotted bucket segment "my.bucket" makes the leftmost
regex match capture "my"; the second resolves "edm". So the resolved
name is not determined by the basename alone. -/
theorem resolver_not_basename_only_counterexample :
    extract_table_name "s3://my.bucket/a/edm.csv" = some "my" ∧
    extract_table_name "s3://bucket/a/edm.csv" = some "edm" ∧
    basenameSeg "s3://my.bucket/a/edm.csv" = basenameSeg "s3://bucket/a/edm.csv" ∧
    extract_table_name "s3://my.bucket/a/edm.csv" ≠
      extract_table_name "s3://bucket/a/edm.csv" := by
  decide

/-- C5 (amended): resolution takes the leftmost regex match over the
whole path, so a dot in an earlier path segment can determine the
result; whenever no dot occurs before the final path separator, the
resolved name depends only on the basename: any two such paths with
the same final segment resolve identically. -/
theorem resolver_basename_determined_of_dot_free_prefix
    (pre₁ pre₂ bn : String) (h₁ : '.' ∉ pre₁.data) (h₂ : '.' ∉ pre₂.data)
    (hbn : '/' ∉ bn.data) :
    extract_table_name (pre₁ ++ "/" ++ bn) = extract_table_name (pre₂ ++ "/" ++ bn) := by
  have key : ∀ pre : String, '.' ∉ pre.data →
      extract_table_name (pre ++ "/" ++ bn) = matchAt ('/' :: bn.data) := by
    intro pre hpre
    have hd : (pre ++ "/" ++ bn).data = pre.data ++ '/' :: bn.data := by
      show (pre.data ++ "/".data) ++ bn.data = _
      simp
    unfold extract_table_name
    rw [hd]
    exact searchMatch_split hpre hbn
  rw [key pre₁ h₁, key pre₂ h₂]

theorem resolver_basename_determined_witness :
    extract_table_name ("s3://bucket/a" ++ "/" ++ "edm.csv") =
      extract_table_name ("x" ++ "/" ++ "edm.csv") :=
  resolver_basename_determined_of_dot_free_prefix "s3://bucket/a" "x" "edm.csv"
    (by decide) (by decide) (by decide)

/-- C6 counterexample: the bare filename "json" contains no dot, yet
`detect_format` returns "json", not the claimed "csv" fallback: with no
dot the "extension" is the whole path, which here IS one of the four
known tags. -/
theorem detect_format_no_dot_counterexample :
    detect_format "json" = "json" ∧ ("json" : String) ≠ "csv" ∧
    '.' ∉ ("json" : String).data := by
  decide

/-- C6 (amended): `detect_format` splits on the last literal dot,
lower-cases the trailing segment and returns it when it is one of
csv/json/parquet/txt, otherwise "csv"; extension matching is
case-insensitive and unknown extensions fall back to "csv"; a path
with no dot is its own "extension", so it yields "csv" unless the whole
lower-cased path is itself one of the four tags (e.g. the bare
filename "json"). -/
theorem detect_format_characterization :
    (∀ s : String,
      ((lowerStr (lastSegAfterDot s) = "csv" ∨ lowerStr (lastSegAfterDot s) = "json" ∨
        lowerStr (lastSegAfterDot s) = "parquet" ∨ lowerStr (lastSegAfterDot s) = "txt") →
          detect_format s = lowerStr (lastSegAfterDot s)) ∧
      (¬(lowerStr (lastSegAfterDot s) = "csv" ∨ lowerStr (lastSegAfterDot s) = "json" ∨
         lowerStr (lastSegAfterDot s) = "parquet" ∨ lowerStr (lastSegAfterDot s) = "txt") →
          detect_format s = "csv")) ∧
    detect_format "a/b/file.CSV" = "csv" ∧
    detect_format "a/b/file.unknownext" = "csv" ∧
    (∀ s : String, '.' ∉ s.data →
      ((lowerStr s = "csv" ∨ lowerStr s = "json" ∨ lowerStr s = "parquet" ∨
        lowerStr s = "txt") → detect_format s = lowerStr s) ∧
      (¬(lowerStr s = "csv" ∨ lowerStr s = "json" ∨ lowerStr s = "parquet" ∨
         lowerStr s = "txt") → detect_format s = "csv")) := by
  refine ⟨fun s => ⟨fun h => ?_, fun h => ?_⟩, by decide, by decide, fun s hnd => ?_⟩
  · simp only [detect_format]
    rw [if_pos h]
  · simp only [detect_format]
    rw [if_neg h]
  · rw [show lowerStr s = lowerStr (lastSegAfterDot s) from by
      rw [lastSegAfterDot_of_no_dot hnd]]
    constructor
    · intro h
      simp only [detect_format]
      rw [if_pos h]
    · intro h
      simp only [detect_format]
      rw [if_neg h]

theorem detect_format_characterization_witness :
    detect_format "a/b.xyz" = "csv" :=
  (detect_format_characterization.1 "a/b.xyz").2 (by decide)

/-- C7: every options dictionary contains the base options — the format
tag, the per-table schema-tracking location `ckpt/table/schema` and
inferColumnTypes=true; csv additionally carries header=true and
delimiter=","; txt carries header=true and delimiter=tab; json and
parquet contain no header or delimiter key at all. -/
theorem build_options_contents (f t cp : String) :
    ("cloudFiles.format", f) ∈ build_options f t cp ∧
    ("cloudFiles.schemaLocation", cp ++ "/" ++ t ++ "/schema") ∈ build_options f t cp ∧
    ("cloudFiles.inferColumnTypes", "true") ∈ build_options f t cp ∧
    ("header", "true") ∈ build_options "csv" t cp ∧
    ("delimiter", ",") ∈ build_options "csv" t cp ∧
    ("header", "true") ∈ build_options "txt" t cp ∧
    ("delimiter", "\t") ∈ build_options "txt" t cp ∧
    List.lookup "header" (build_options "json" t cp) = none ∧
    List.lookup "delimiter" (build_options "json" t cp) = none ∧
    List.lookup "header" (build_options "parquet" t cp) = none ∧
    List.lookup "delimiter" (build_options "parquet" t cp) = none := by
  refine ⟨?_, ?_, ?_, ?_, ?_, ?_, ?_, rfl, rfl, rfl, rfl⟩ <;>
    unfold build_options <;> split <;> (try split) <;> simp_all

/-- C8: a path with no dot-delimited segment led by a nonempty
alphanumeric/underscore run resolves to none, and a file resolving to
none makes the driver emit only the skip log line — no read, write,
move or error — leaving the file untouched; in particular the
extensionless example path resolves to none. -/
theorem resolver_skips_without_matching_segment :
    (∀ s : String, ¬ matchDecomp s.data → extract_table_name s = none) ∧
    (∀ (env : Env) (now : Nat) (s : String), extract_table_name s = none →
      process_file env now s = ⟨[Event.skippedNoName s], none⟩) ∧
    extract_table_name "s3://bucket/landingzone/noext" = none := by
  refine ⟨fun s hnd => ?_, fun env now s h => process_file_skip_none h, by decide⟩
  unfold extract_table_name
  cases hm : searchMatch s.data with
  | none => rfl
  | some g => exact absurd (searchMatch_some_decomp hm) hnd

theorem resolver_skips_without_matching_segment_witness :
    extract_table_name "s3://bucket/landingzone/noext" = none ∧
    process_file (testEnv ["t"] fun _ => true) 0 "s3://bucket/landingzone/noext" =
      ⟨[Event.skippedNoName "s3://bucket/landingzone/noext"], none⟩ :=
  ⟨resolver_skips_without_matching_segment.1 "s3://bucket/landingzone/noext"
      (fun hm => (matchDecomp_iff _).mp hm (by decide)),
   resolver_skips_without_matching_segment.2.1 (testEnv ["t"] fun _ => true) 0
      "s3://bucket/landingzone/noext" (by decide)⟩

/-- C9: every row of a row-set written by the driver carries a
source_file column equal to the written file's full path and a
load_timestamp column from the single per-file clock evaluation, so
all rows written for one file share one identical timestamp. -/
theorem written_rows_provenance (env : Env) (now : Nat) (files : List String)
    (tbl q : String) (df : List Row)
    (h : Event.wrote tbl df q ∈ (main_loop env now files).events) :
    ∃ t, ∀ r ∈ df,
      List.lookup "source_file" r = some (ColVal.str q) ∧
      List.lookup "load_timestamp" r = some (ColVal.time t) := by
  obtain ⟨t, n, hdf⟩ := wrote_mem_loop h
  exact ⟨t, fun r hr => augment_mem (hdf ▸ hr)⟩

theorem written_rows_provenance_witness :
    ∃ t, ∀ r ∈ augment [[("col", ColVal.str "v")]] "L/t.csv" 0,
      List.lookup "source_file" r = some (ColVal.str "L/t.csv") ∧
      List.lookup "load_timestamp" r = some (ColVal.time t) :=
  written_rows_provenance (testEnv ["t"] fun _ => true) 0 ["L/t.csv"] "c.s.t"
    "L/t.csv" (augment [[("col", ColVal.str "v")]] "L/t.csv" 0) (by decide)

/-- C10: the regex requires a literal '/' immediately before the
captured run, so any path containing no '/' at all resolves to none —
even one of the shape name.ext with a leading word run, such as
"edm_entity.csv". -/
theorem resolver_requires_slash :
    (∀ s : String, '/' ∉ s.data → extract_table_name s = none) ∧
    extract_table_name "edm_entity.csv" = none :=
  ⟨fun _ h => searchMatch_of_no_slash h, by decide⟩

theorem resolver_requires_slash_witness :
    extract_table_name "table.csv" = none :=
  resolver_requires_slash.1 "table.csv" (by decide)

end Autoloader
